import Mathlib

/-!
Verification development for the palettecraft core
(`src/palettecraft/core.py`): color-space helpers, hex formatting and
parsing, the k-means palette assembler, and the complementary-color
deriver.  Python reals are embedded as exact rationals (`ℚ`), Python
integers as `ℤ`, Python strings as `List Char`.
-/

namespace Palettecraft

/-- Python float modulo `a % b` for `b > 0`: `a - b * ⌊a / b⌋`. -/
def pymod (a b : ℚ) : ℚ := a - b * ⌊a / b⌋

/-- Python `round` on an exact rational: round half to even (banker's
rounding), as Python 3's built-in `round` does. -/
def pyRound (q : ℚ) : ℤ :=
  if Int.fract q = 1/2 then (if ⌊q⌋ % 2 = 0 then ⌊q⌋ else ⌊q⌋ + 1) else round q

/-- numpy `astype(int)` on one entry: truncation toward zero. -/
def truncQ (q : ℚ) : ℤ := if 0 ≤ q then ⌊q⌋ else ⌈q⌉

/-- Hexadecimal digit characters `0-9`, `a-f`, `A-F` (by code point),
the digits accepted by Python `int(·, 16)` in its ASCII fragment. -/
def isHexDigitChar (c : Char) : Bool :=
  (48 ≤ c.toNat && c.toNat ≤ 57) || (97 ≤ c.toNat && c.toNat ≤ 102) ||
    (65 ≤ c.toNat && c.toNat ≤ 70)

/-- Numeric value of a hexadecimal digit character. -/
def hexDigitVal (c : Char) : ℕ :=
  if c.toNat ≤ 57 then c.toNat - 48
  else if c.toNat ≤ 70 then c.toNat - 55
  else c.toNat - 87

/-- ASCII whitespace stripped by Python `int(·, 16)`:
space and `\t`, `\n`, `\v`, `\f`, `\r` (code points 9–13 and 32). -/
def isPySpace (c : Char) : Bool :=
  c.toNat = 32 || (9 ≤ c.toNat && c.toNat ≤ 13)

/-- Strip leading and trailing ASCII whitespace (Python's `int` does this
before parsing). -/
def stripSpaces (s : List Char) : List Char :=
  ((s.dropWhile isPySpace).reverse.dropWhile isPySpace).reverse

/-- Value of a run of hexadecimal digit characters (underscore separators
already removed), most significant first. -/
def hexDigitsVal (s : List Char) : ℕ :=
  s.foldl (fun a c => 16 * a + hexDigitVal c) 0

/-- After the first digit of an `int(·, 16)` literal: further digits, with
single underscores allowed only between digits. -/
def hexRunTail : List Char → Bool
  | [] => true
  | c :: rest =>
    if c = '_' then
      (match rest with
       | [] => false
       | c2 :: _ => isHexDigitChar c2) && hexRunTail rest
    else isHexDigitChar c && hexRunTail rest

/-- A valid `int(·, 16)` digit run: nonempty, starts with a digit, single
underscores only between digits. -/
def hexRunOk : List Char → Bool
  | [] => false
  | c :: rest => isHexDigitChar c && hexRunTail rest

/-- Drop an optional `0x` / `0X` prefix, as Python `int(·, 16)` allows. -/
def stripHexPrefix (s : List Char) : List Char :=
  match s with
  | c0 :: c1 :: rest =>
    if c0 = '0' ∧ (c1 = 'x' ∨ c1 = 'X') then rest else s
  | _ => s

/-- Parse the part of an `int(·, 16)` literal after any sign. -/
def parseHexRun (s : List Char) : Option ℕ :=
  let body := stripHexPrefix s
  if hexRunOk body then some (hexDigitsVal (body.filter (fun c => c ≠ '_')))
  else none

/-- Embedding of Python `int(s, 16)` on ASCII strings, as `hex_to_rgb`
applies it to two-character slices: strip surrounding whitespace, accept an
optional sign and an optional `0x` prefix, then a digit run.  `none` models
a raised `ValueError`.  CPython additionally folds Unicode decimal digits
and Unicode whitespace to their ASCII counterparts before parsing (e.g.
Python accepts an Arabic-Indic digit where this model does not), and allows
an underscore directly after the `0x` prefix; those cases are outside this
model, which is faithful to CPython only on ASCII strings of length at most
two — theorems that characterize `hex_to_rgb` through it therefore restrict
their inputs to ASCII. -/
def pyIntHex16 (s0 : List Char) : Option ℤ :=
  let s := stripSpaces s0
  match s with
  | [] => none
  | c :: rest =>
    if c = '+' then (parseHexRun rest).map (fun n => (n : ℤ))
    else if c = '-' then (parseHexRun rest).map (fun n => -(n : ℤ))
    else (parseHexRun (c :: rest)).map (fun n => (n : ℤ))

/-- Python `f"{n:02x}"` for an integer: lowercase hexadecimal, zero-padded
to width 2 (a sign counts toward the width). -/
def format02x (n : ℤ) : List Char :=
  if n < 0 then '-' :: Nat.toDigits 16 (-n).toNat
  else if n.toNat < 16 then ['0', Nat.digitChar n.toNat]
  else if n.toNat < 256 then [Nat.digitChar (n.toNat / 16), Nat.digitChar (n.toNat % 16)]
  else Nat.toDigits 16 n.toNat

/-- `rgb_to_hex` from core.py: `"#" + "".join(f"{c:02x}" for c in color)`. -/
def rgb_to_hex (c : ℤ × ℤ × ℤ) : List Char :=
  '#' :: (format02x c.1 ++ format02x c.2.1 ++ format02x c.2.2)

/-- The structured failure of the color-string parser (`ValueError` in the
source, `FormatError` in the specification). -/
inductive ColorError where
  | FormatError : ColorError
deriving DecidableEq

/-- `hex_to_rgb` from core.py: `value.lstrip("#")` drops *every* leading
`#`; the remainder must have length 6; the three two-character slices are
parsed with `int(·, 16)`. -/
def hex_to_rgb (s : List Char) : Except ColorError (ℤ × ℤ × ℤ) :=
  let v := s.dropWhile (fun c => c = '#')
  if v.length ≠ 6 then .error .FormatError
  else
    match pyIntHex16 (v.take 2), pyIntHex16 ((v.drop 2).take 2),
        pyIntHex16 ((v.drop 4).take 2) with
    | some a, some b, some c => .ok (a, b, c)
    | _, _, _ => .error .FormatError

/-- Embedding of Python stdlib `colorsys.rgb_to_hls` over exact rationals.
Channels are normalized to `[0,1]`; returns `(h, l, s)` with the hue
reduced by `% 1.0`. -/
def rgb_to_hls (r g b : ℚ) : ℚ × ℚ × ℚ :=
  let maxc := max r (max g b)
  let minc := min r (min g b)
  let sumc := maxc + minc
  let rangec := maxc - minc
  let l := sumc / 2
  if minc = maxc then (0, l, 0)
  else
    let s := if l ≤ 1/2 then rangec / sumc else rangec / (2 - sumc)
    let rc := (maxc - r) / rangec
    let gc := (maxc - g) / rangec
    let bc := (maxc - b) / rangec
    let h := if r = maxc then bc - gc
             else if g = maxc then 2 + rc - bc
             else 4 + gc - rc
    (pymod (h / 6) 1, l, s)

/-- Embedding of the helper `_v` of `colorsys`: piecewise-linear hue
interpolation between `m1` and `m2` (the float constants `ONE_SIXTH`,
`ONE_THIRD`, `TWO_THIRD` are embedded as the exact rationals they
approximate). -/
def hls_v (m1 m2 hue : ℚ) : ℚ :=
  let hue2 := pymod hue 1
  if hue2 < 1/6 then m1 + (m2 - m1) * hue2 * 6
  else if hue2 < 1/2 then m2
  else if hue2 < 2/3 then m1 + (m2 - m1) * (2/3 - hue2) * 6
  else m1

/-- Embedding of Python stdlib `colorsys.hls_to_rgb` over exact
rationals. -/
def hls_to_rgb (h l s : ℚ) : ℚ × ℚ × ℚ :=
  if s = 0 then (l, l, l)
  else
    let m2 := if l ≤ 1/2 then l * (1 + s) else l + s - l * s
    let m1 := 2 * l - m2
    (hls_v m1 m2 (h + 1/3), hls_v m1 m2 h, hls_v m1 m2 (h - 1/3))

/-- `complementary_color` from core.py: normalize to `[0,1]`, convert to
HLS, add `0.5` to the hue modulo `1.0`, convert back, scale by 255 and
round each channel with Python's `round`. -/
def complementary_color (c : ℤ × ℤ × ℤ) : ℤ × ℤ × ℤ :=
  let r := (c.1 : ℚ) / 255
  let g := (c.2.1 : ℚ) / 255
  let b := (c.2.2 : ℚ) / 255
  let hls := rgb_to_hls r g b
  let h2 := pymod (hls.1 + 1/2) 1
  let rgb2 := hls_to_rgb h2 hls.2.1 hls.2.2
  (pyRound (rgb2.1 * 255), pyRound (rgb2.2.1 * 255), pyRound (rgb2.2.2 * 255))

/-- A pixel sample or centroid in RGB space, with exact rational
coordinates. -/
abbrev Point := ℚ × ℚ × ℚ

/-- Squared Euclidean distance in RGB space. -/
def sqDist (a b : Point) : ℚ :=
  (a.1 - b.1) ^ 2 + (a.2.1 - b.2.1) ^ 2 + (a.2.2 - b.2.2) ^ 2

/-- Scan for the index of the closest centroid (ties keep the lowest
index). -/
def nearestGo (x : Point) : ℕ → ℕ → ℚ → List Point → ℕ
  | _, bi, _, [] => bi
  | i, bi, bd, c :: cs =>
    if sqDist x c < bd then nearestGo x (i + 1) i (sqDist x c) cs
    else nearestGo x (i + 1) bi bd cs

/-- Index of the centroid nearest to `x` (ties broken by lowest index,
§4.2 assignment step). -/
def nearestIdx (x : Point) (cs : List Point) : ℕ :=
  match cs with
  | [] => 0
  | c :: rest => nearestGo x 1 0 (sqDist x c) rest

/-- Distance from `x` to its nearest centroid. -/
def distToNearest (cs : List Point) (x : Point) : ℚ :=
  match cs with
  | [] => 0
  | c :: rest => rest.foldl (fun d c2 => min d (sqDist x c2)) (sqDist x c)

/-- Scan for the sample farthest from its nearest centroid (ties keep the
earliest sample). -/
def farthestGo (cs : List Point) : Point → ℚ → List Point → Point
  | best, _, [] => best
  | best, bd, y :: ys =>
    if bd < distToNearest cs y then farthestGo cs y (distToNearest cs y) ys
    else farthestGo cs best bd ys

/-- Re-seed value for an empty cluster (§4.2 update step): the sample
farthest from its nearest centroid. -/
def reseedPoint (cs xs : List Point) : Point :=
  match xs with
  | [] => (0, 0, 0)
  | x :: rest => farthestGo cs x (distToNearest cs x) rest

/-- Component-wise mean of a list of points. -/
def meanP (l : List Point) : Point :=
  ((l.map (fun p => p.1)).sum / l.length,
   (l.map (fun p => p.2.1)).sum / l.length,
   (l.map (fun p => p.2.2)).sum / l.length)

/-- The samples currently assigned to cluster `j`. -/
def clusterMembers (xs cs : List Point) (j : ℕ) : List Point :=
  xs.filter (fun x => nearestIdx x cs = j)

/-- §4.2 update step for one centroid: mean of the assigned samples, or the
re-seed point if the cluster is empty. -/
def updateCentroid (xs cs : List Point) (j : ℕ) : Point :=
  let mem := clusterMembers xs cs j
  if mem = [] then reseedPoint cs xs else meanP mem

/-- One Lloyd iteration: update every centroid. -/
def stepCentroids (xs cs : List Point) : List Point :=
  (List.range cs.length).map (updateCentroid xs cs)

/-- Lloyd iterations with a fuel cap, stopping at a fixed point. -/
def lloyd : ℕ → List Point → List Point → List Point
  | 0, _, cs => cs
  | fuel + 1, xs, cs =>
    let cs2 := stepCentroids xs cs
    if cs2 = cs then cs else lloyd fuel xs cs2

/-- Structured failures of the clustering engine (§7). -/
inductive KMeansError where
  | EmptyInput : KMeansError
  | InvalidArgument : KMeansError
deriving DecidableEq

/-- Modelled from the spec: the k-means Clustering Engine of §4.2, which in
the source is the external library call
`KMeans(n_clusters=num_colors, random_state=0).fit` (scikit-learn, not part
of the repository).  The fixed reproducible seeding is modelled by
initializing with the first `k` samples; Lloyd iterations assign each sample
to the nearest centroid (ties to the lowest index), recompute each centroid
as the mean of its members, re-seed an empty cluster to the sample farthest
from its nearest centroid, and stop at a fixed point or after the mandatory
iteration cap (300, scikit-learn's default `max_iter`).  Validation follows
§4.2/§7: `EmptyInput` for an empty sample collection, `InvalidArgument`
when `k < 1` or `k` exceeds the total sample count. -/
def kmeans (xs : List Point) (k : ℕ) : Except KMeansError (List Point) :=
  if xs = [] then .error .EmptyInput
  else if k < 1 ∨ xs.length < k then .error .InvalidArgument
  else .ok (lloyd 300 xs (xs.take k))

/-- `luminance` from core.py: `0.2126*r + 0.7152*g + 0.0722*b`, the float
coefficients embedded as the exact decimals they denote. -/
def luminance (c : ℤ × ℤ × ℤ) : ℚ :=
  (2126 * c.1 + 7152 * c.2.1 + 722 * c.2.2) / 10000

/-- `PaletteColor` from core.py: a record holding one RGB triple. -/
structure PaletteColor where
  rgb : ℤ × ℤ × ℤ
deriving DecidableEq

/-- `PaletteColor.to_hex` from core.py. -/
def PaletteColor.to_hex (p : PaletteColor) : List Char := rgb_to_hex p.rgb

/-- Stable insertion of `x` into a list already sorted by `luminance`:
`x` is placed before the first element whose key is `≥` its own, so an
element inserted later (originally earlier) precedes equal keys. -/
def insertByLum (x : ℤ × ℤ × ℤ) : List (ℤ × ℤ × ℤ) → List (ℤ × ℤ × ℤ)
  | [] => [x]
  | y :: ys =>
    if luminance x ≤ luminance y then x :: y :: ys else y :: insertByLum x ys

/-- Python's `sorted(·, key=luminance)`: the stable sort by luminance
(computed here by insertion sort, which produces the same, unique, stable
ordering as the source's Timsort). -/
def sortByLum : List (ℤ × ℤ × ℤ) → List (ℤ × ℤ × ℤ)
  | [] => []
  | x :: xs => insertByLum x (sortByLum xs)

/-- `centers.astype(int)` on one centroid: numpy truncation toward zero,
channel-wise. -/
def truncCentroid (c : Point) : ℤ × ℤ × ℤ := (truncQ c.1, truncQ c.2.1, truncQ c.2.2)

/-- `extract_palette` from core.py (lines 112–124), over the flat pixel
array — image decoding/resizing is a collaborator concern outside the core,
so the inputs are the spec's `extractPalette(samples, k)`: run the
clustering engine with its fixed seed, truncate the centroids to integers
(`astype(int)`), sort stably ascending by luminance and wrap each color in
a `PaletteColor`. -/
def extract_palette (pixels : List (ℤ × ℤ × ℤ)) (k : ℕ) :
    Except KMeansError (List PaletteColor) :=
  (kmeans (pixels.map (fun p => ((p.1 : ℚ), (p.2.1 : ℚ), (p.2.2 : ℚ)))) k).map
    (fun centers => (sortByLum (centers.map truncCentroid)).map PaletteColor.mk)

/-- The centroid conversion as claim C4 words it (after §4.3 of the spec):
round to the nearest integer, then clamp to `[0,255]` — the spec-side
alternative to the source's `truncCentroid`, kept for comparison. -/
def roundClampCentroid (c : Point) : ℤ × ℤ × ℤ :=
  (min 255 (max 0 (round c.1)), min 255 (max 0 (round c.2.1)),
    min 255 (max 0 (round c.2.2)))

/-- `extract_palette` as claim C4 describes the centroid conversion
(round-to-nearest with clamping in place of `astype(int)`). -/
def extract_palette_roundSpec (pixels : List (ℤ × ℤ × ℤ)) (k : ℕ) :
    Except KMeansError (List PaletteColor) :=
  (kmeans (pixels.map (fun p => ((p.1 : ℚ), (p.2.1 : ℚ), (p.2.2 : ℚ)))) k).map
    (fun centers => (sortByLum (centers.map roundClampCentroid)).map PaletteColor.mk)

/-- All three coordinates of a rational RGB point lie in `[0,255]`. -/
def inRangeP (p : Point) : Prop :=
  0 ≤ p.1 ∧ p.1 ≤ 255 ∧ 0 ≤ p.2.1 ∧ p.2.1 ≤ 255 ∧ 0 ≤ p.2.2 ∧ p.2.2 ≤ 255

/-- The acceptance condition of claim C6 as the spec words it: after
stripping one optional leading `#`, the remainder must be exactly six
hexadecimal characters. -/
def specHexAccept (s : List Char) : Bool :=
  let v := if s.head? = some '#' then s.tail else s
  v.length == 6 && v.all isHexDigitChar

instance {ε α : Type} [DecidableEq ε] [DecidableEq α] : DecidableEq (Except ε α) := fun
  | .error a, .error b =>
    if h : a = b then .isTrue (by rw [h]) else .isFalse (by simp [h])
  | .error _, .ok _ => .isFalse (by simp)
  | .ok _, .error _ => .isFalse (by simp)
  | .ok a, .ok b =>
    if h : a = b then .isTrue (by rw [h]) else .isFalse (by simp [h])

/-! ### Lemmas about the stable luminance sort -/

theorem insertByLum_perm (x : ℤ × ℤ × ℤ) (l : List (ℤ × ℤ × ℤ)) :
    (insertByLum x l).Perm (x :: l) := by
  induction l with
  | nil => simp [insertByLum]
  | cons y ys ih =>
    by_cases h : luminance x ≤ luminance y
    · simp [insertByLum, h]
    · simp only [insertByLum, if_neg h]
      exact (ih.cons y).trans (List.Perm.swap x y ys)

theorem sortByLum_perm (l : List (ℤ × ℤ × ℤ)) : (sortByLum l).Perm l := by
  induction l with
  | nil => simp [sortByLum]
  | cons x xs ih =>
    exact (insertByLum_perm x (sortByLum xs)).trans (ih.cons x)

theorem sortByLum_length (l : List (ℤ × ℤ × ℤ)) :
    (sortByLum l).length = l.length :=
  (sortByLum_perm l).length_eq

theorem sortByLum_mem (l : List (ℤ × ℤ × ℤ)) (c : ℤ × ℤ × ℤ) :
    c ∈ sortByLum l ↔ c ∈ l :=
  (sortByLum_perm l).mem_iff

theorem insertByLum_sorted (x : ℤ × ℤ × ℤ) (l : List (ℤ × ℤ × ℤ))
    (h : l.Pairwise (fun a b => luminance a ≤ luminance b)) :
    (insertByLum x l).Pairwise (fun a b => luminance a ≤ luminance b) := by
  induction l with
  | nil => simp [insertByLum]
  | cons y ys ih =>
    rcases List.pairwise_cons.mp h with ⟨hy, hys⟩
    by_cases hxy : luminance x ≤ luminance y
    · simp only [insertByLum, if_pos hxy]
      refine List.pairwise_cons.mpr ⟨?_, h⟩
      intro z hz
      rcases List.mem_cons.mp hz with hz | hz
      · rw [hz]; exact hxy
      · exact le_trans hxy (hy _ hz)
    · simp only [insertByLum, if_neg hxy]
      refine List.pairwise_cons.mpr ⟨?_, ih hys⟩
      intro z hz
      rcases List.mem_cons.mp ((insertByLum_perm x ys).mem_iff.mp hz) with hz | hz
      · rw [hz]; exact le_of_lt (lt_of_not_le hxy)
      · exact hy _ hz

theorem sortByLum_sorted (l : List (ℤ × ℤ × ℤ)) :
    (sortByLum l).Pairwise (fun a b => luminance a ≤ luminance b) := by
  induction l with
  | nil => simp [sortByLum]
  | cons x xs ih => exact insertByLum_sorted x (sortByLum xs) ih

theorem insertByLum_filter_key (x : ℤ × ℤ × ℤ) (l : List (ℤ × ℤ × ℤ)) (v : ℚ) :
    (insertByLum x l).filter (fun c => luminance c = v) =
      if luminance x = v then x :: l.filter (fun c => luminance c = v)
      else l.filter (fun c => luminance c = v) := by
  induction l with
  | nil => by_cases hv : luminance x = v <;> simp [insertByLum, hv]
  | cons y ys ih =>
    by_cases hxy : luminance x ≤ luminance y
    · simp only [insertByLum]
      rw [if_pos hxy]
      by_cases hv : luminance x = v <;> by_cases hyv : luminance y = v <;>
        simp [List.filter_cons, hv, hyv]
    · have hyx : luminance y < luminance x := lt_of_not_le hxy
      simp only [insertByLum]
      rw [if_neg hxy]
      by_cases hyv : luminance y = v
      · have hv : ¬ luminance x = v := by
          intro hv; rw [hv, ← hyv] at hyx; exact lt_irrefl _ hyx
        simp [List.filter_cons, hyv, ih, hv]
      · by_cases hv : luminance x = v <;>
          simp [List.filter_cons, hyv, ih, hv]

theorem sortByLum_filter_key (l : List (ℤ × ℤ × ℤ)) (v : ℚ) :
    (sortByLum l).filter (fun c => luminance c = v) =
      l.filter (fun c => luminance c = v) := by
  induction l with
  | nil => simp [sortByLum]
  | cons x xs ih =>
    by_cases hv : luminance x = v <;>
      simp [sortByLum, insertByLum_filter_key, hv, List.filter_cons, ih]

/-! ### Lemmas about the HLS transform -/

theorem pymod_one_fract (q : ℚ) : pymod q 1 = q - ⌊q⌋ := by
  simp [pymod]

theorem pymod_one_eq (q : ℚ) (n : ℤ) (h1 : (n : ℚ) ≤ q) (h2 : q < n + 1) :
    pymod q 1 = q - n := by
  have hf : ⌊q⌋ = n := by
    rw [Int.floor_eq_iff]
    exact ⟨h1, by exact_mod_cast h2⟩
  rw [pymod_one_fract, hf]

theorem hls_v_sector1 (m1 m2 q : ℚ) (n : ℤ) (h1 : (n : ℚ) ≤ q)
    (h2 : q < n + 1/6) : hls_v m1 m2 q = m1 + (m2 - m1) * (q - n) * 6 := by
  have hm : pymod q 1 = q - n := pymod_one_eq q n h1 (by linarith)
  simp only [hls_v, hm]
  rw [if_pos (by linarith)]

theorem hls_v_sector2 (m1 m2 q : ℚ) (n : ℤ) (h1 : (n : ℚ) + 1/6 ≤ q)
    (h2 : q < n + 1/2) : hls_v m1 m2 q = m2 := by
  have hm : pymod q 1 = q - n := pymod_one_eq q n (by linarith) (by linarith)
  simp only [hls_v, hm]
  rw [if_neg (by linarith), if_pos (by linarith)]

theorem hls_v_sector3 (m1 m2 q : ℚ) (n : ℤ) (h1 : (n : ℚ) + 1/2 ≤ q)
    (h2 : q < n + 2/3) :
    hls_v m1 m2 q = m1 + (m2 - m1) * (2/3 - (q - n)) * 6 := by
  have hm : pymod q 1 = q - n := pymod_one_eq q n (by linarith) (by linarith)
  simp only [hls_v, hm]
  rw [if_neg (by linarith), if_neg (by linarith), if_pos (by linarith)]

theorem hls_v_sector4 (m1 m2 q : ℚ) (n : ℤ) (h1 : (n : ℚ) + 2/3 ≤ q)
    (h2 : q < n + 1) : hls_v m1 m2 q = m1 := by
  have hm : pymod q 1 = q - n := pymod_one_eq q n (by linarith) (by linarith)
  simp only [hls_v, hm]
  rw [if_neg (by linarith), if_neg (by linarith), if_neg (by linarith)]

theorem hls_v_int_shift (m1 m2 q : ℚ) (n : ℤ) :
    hls_v m1 m2 (q - n) = hls_v m1 m2 q := by
  have h : pymod (q - n) 1 = pymod q 1 := by
    rw [pymod_one_fract, pymod_one_fract, Int.floor_sub_int]
    push_cast
    ring
  simp only [hls_v, h]

theorem hls_v_pymod_add (m1 m2 a t : ℚ) :
    hls_v m1 m2 (pymod a 1 + t) = hls_v m1 m2 (a + t) := by
  have h : pymod a 1 + t = (a + t) - (⌊a⌋ : ℤ) := by
    rw [pymod_one_fract]; ring
  rw [h, hls_v_int_shift]

theorem hls_v_pymod2_add (m1 m2 a s t : ℚ) :
    hls_v m1 m2 (pymod (pymod a 1 + s) 1 + t) = hls_v m1 m2 (a + s + t) := by
  rw [hls_v_pymod_add, add_assoc, hls_v_pymod_add, ← add_assoc]

theorem hls_v_pymod2 (m1 m2 a s : ℚ) :
    hls_v m1 m2 (pymod (pymod a 1 + s) 1) = hls_v m1 m2 (a + s) := by
  have h := hls_v_pymod_add m1 m2 (pymod a 1 + s) 0
  rw [add_zero] at h
  rw [h, add_zero, hls_v_pymod_add]

theorem hls_v_pymod2_sub (m1 m2 a s t : ℚ) :
    hls_v m1 m2 (pymod (pymod a 1 + s) 1 - t) = hls_v m1 m2 (a + s - t) := by
  have h1 : pymod (pymod a 1 + s) 1 - t = pymod (pymod a 1 + s) 1 + (-t) := by ring
  have h2 : a + s - t = a + s + (-t) := by ring
  rw [h1, h2, hls_v_pymod2_add]

theorem pyRound_intCast (n : ℤ) : pyRound ((n : ℚ)) = n := by
  have h1 : Int.fract ((n : ℚ)) = 0 := Int.fract_intCast n
  rw [pyRound, h1]
  norm_num

set_option maxHeartbeats 1600000

theorem hls_v_reflect_channels (x y z M m : ℚ)
    (hxM : x ≤ M) (hyM : y ≤ M) (hzM : z ≤ M)
    (hmx : m ≤ x) (hmy : m ≤ y) (hmz : m ≤ z)
    (hminyz : m = min x (min y z)) (hmaxyz : M = max x (max y z))
    (hlt : m < M) :
    (hls_v m M (pymod (pymod ((if x = M then (M - z)/(M - m) - (M - y)/(M - m)
        else if y = M then 2 + (M - x)/(M - m) - (M - z)/(M - m)
        else 4 + (M - y)/(M - m) - (M - x)/(M - m))/6) 1 + 1/2) 1 + 1/3),
     hls_v m M (pymod (pymod ((if x = M then (M - z)/(M - m) - (M - y)/(M - m)
        else if y = M then 2 + (M - x)/(M - m) - (M - z)/(M - m)
        else 4 + (M - y)/(M - m) - (M - x)/(M - m))/6) 1 + 1/2) 1),
     hls_v m M (pymod (pymod ((if x = M then (M - z)/(M - m) - (M - y)/(M - m)
        else if y = M then 2 + (M - x)/(M - m) - (M - z)/(M - m)
        else 4 + (M - y)/(M - m) - (M - x)/(M - m))/6) 1 + 1/2) 1 - 1/3)) =
      (M + m - x, M + m - y, M + m - z) := by
  have hρ : 0 < M - m := by linarith
  have hρne : M - m ≠ 0 := ne_of_gt hρ
  rw [hls_v_pymod2_add, hls_v_pymod2, hls_v_pymod2_sub]
  by_cases hxeq : x = M
  · rw [if_pos hxeq]
    have hH : (M - z)/(M - m) - (M - y)/(M - m) = (y - z)/(M - m) := by
      field_simp
    rw [hH]
    set u := (y - z)/(M - m) with hu_def
    have huρ : u * (M - m) = y - z := div_mul_cancel₀ _ hρne
    have hu1 : u ≤ 1 := (div_le_one hρ).mpr (by linarith)
    have hum : -1 ≤ u := by
      rw [hu_def, le_div_iff₀ hρ]; linarith
    simp only [Prod.mk.injEq]
    refine ⟨?_, ?_, ?_⟩
    · rcases lt_or_eq_of_le hu1 with hu1' | hu1'
      · rw [hls_v_sector4 m M (u/6 + 1/2 + 1/3) 0 (by push_cast; linarith)
          (by push_cast; linarith)]
        linarith
      · rw [hls_v_sector1 m M (u/6 + 1/2 + 1/3) 1 (by push_cast; linarith)
          (by push_cast; linarith)]
        push_cast
        linear_combination (M - m) * hu1' + hxeq
    · rcases lt_or_le u 0 with hu0 | hu0
      · rw [hls_v_sector2 m M (u/6 + 1/2) 0 (by push_cast; linarith)
          (by push_cast; linarith)]
        have hyz : y < z := by
          have := mul_neg_of_neg_of_pos hu0 hρ
          linarith [huρ]
        have hmin : m = y := by
          rw [hminyz, min_eq_left (le_of_lt hyz)]
          exact min_eq_right (by rw [hxeq]; exact hyM)
        linarith
      · rcases lt_or_eq_of_le hu1 with hu1' | hu1'
        · rw [hls_v_sector3 m M (u/6 + 1/2) 0 (by push_cast; linarith)
            (by push_cast; linarith)]
          have hzy : z ≤ y := by
            have := mul_nonneg hu0 hρ.le
            linarith [huρ]
          have hmin : m = z := by
            rw [hminyz, min_eq_right hzy]
            exact min_eq_right (by rw [hxeq]; exact hzM)
          push_cast
          linear_combination -huρ - hmin
        · rw [hls_v_sector4 m M (u/6 + 1/2) 0 (by push_cast; linarith)
            (by push_cast; linarith)]
          have h1 : u * (M - m) = M - m := by rw [hu1']; ring
          linarith
    · rcases lt_or_le u 0 with hu0 | hu0
      · rw [hls_v_sector1 m M (u/6 + 1/2 - 1/3) 0 (by push_cast; linarith)
          (by push_cast; linarith)]
        have hyz : y < z := by
          have := mul_neg_of_neg_of_pos hu0 hρ
          linarith [huρ]
        have hmin : m = y := by
          rw [hminyz, min_eq_left (le_of_lt hyz)]
          exact min_eq_right (by rw [hxeq]; exact hyM)
        push_cast
        linear_combination huρ - hmin
      · rw [hls_v_sector2 m M (u/6 + 1/2 - 1/3) 0 (by push_cast; linarith)
          (by push_cast; linarith)]
        have hzy : z ≤ y := by
          have := mul_nonneg hu0 hρ.le
          linarith [huρ]
        have hmin : m = z := by
          rw [hminyz, min_eq_right hzy]
          exact min_eq_right (by rw [hxeq]; exact hzM)
        linarith
  · rw [if_neg hxeq]
    have hxlt : x < M := lt_of_le_of_ne hxM hxeq
    by_cases hyeq : y = M
    · rw [if_pos hyeq]
      have hH : 2 + (M - x)/(M - m) - (M - z)/(M - m) = 2 + (z - x)/(M - m) := by
        field_simp
        ring
      rw [hH]
      set u := (z - x)/(M - m) with hu_def
      have huρ : u * (M - m) = z - x := div_mul_cancel₀ _ hρne
      have hu1 : u ≤ 1 := (div_le_one hρ).mpr (by linarith)
      have hum : -1 < u := by
        rw [hu_def, lt_div_iff₀ hρ]; linarith
      simp only [Prod.mk.injEq]
      refine ⟨?_, ?_, ?_⟩
      · rcases lt_or_le u 0 with hu0 | hu0
        · rw [hls_v_sector1 m M ((2 + u)/6 + 1/2 + 1/3) 1 (by push_cast; linarith)
            (by push_cast; linarith)]
          have hzx : z < x := by
            have := mul_neg_of_neg_of_pos hu0 hρ
            linarith [huρ]
          have hmin : m = z := by
            rw [hminyz, show min y z = z from min_eq_right (show z ≤ y by
              rw [hyeq]; exact hzM)]
            exact min_eq_right (le_of_lt hzx)
          push_cast
          linear_combination huρ - hmin
        · rw [hls_v_sector2 m M ((2 + u)/6 + 1/2 + 1/3) 1 (by push_cast; linarith)
            (by push_cast; linarith)]
          have hxz : x ≤ z := by
            have := mul_nonneg hu0 hρ.le
            linarith [huρ]
          have hmin : m = x := by
            rw [hminyz]
            exact min_eq_left (le_min (by rw [hyeq]; exact hxM) hxz)
          linarith
      · rcases lt_or_eq_of_le hu1 with hu1' | hu1'
        · rw [hls_v_sector4 m M ((2 + u)/6 + 1/2) 0 (by push_cast; linarith)
            (by push_cast; linarith)]
          linarith
        · rw [hls_v_sector1 m M ((2 + u)/6 + 1/2) 1 (by push_cast; linarith)
            (by push_cast; linarith)]
          push_cast
          linear_combination (M - m) * hu1' + hyeq
      · rcases lt_or_le u 0 with hu0 | hu0
        · rw [hls_v_sector2 m M ((2 + u)/6 + 1/2 - 1/3) 0 (by push_cast; linarith)
            (by push_cast; linarith)]
          have hzx : z < x := by
            have := mul_neg_of_neg_of_pos hu0 hρ
            linarith [huρ]
          have hmin : m = z := by
            rw [hminyz, show min y z = z from min_eq_right (show z ≤ y by
              rw [hyeq]; exact hzM)]
            exact min_eq_right (le_of_lt hzx)
          linarith
        · rcases lt_or_eq_of_le hu1 with hu1' | hu1'
          · rw [hls_v_sector3 m M ((2 + u)/6 + 1/2 - 1/3) 0 (by push_cast; linarith)
              (by push_cast; linarith)]
            have hxz : x ≤ z := by
              have := mul_nonneg hu0 hρ.le
              linarith [huρ]
            have hmin : m = x := by
              rw [hminyz]
              exact min_eq_left (le_min (by rw [hyeq]; exact hxM) hxz)
            push_cast
            linear_combination -huρ - hmin
          · rw [hls_v_sector4 m M ((2 + u)/6 + 1/2 - 1/3) 0 (by push_cast; linarith)
              (by push_cast; linarith)]
            have h1 : u * (M - m) = M - m := by rw [hu1']; ring
            linarith
    · rw [if_neg hyeq]
      have hylt : y < M := lt_of_le_of_ne hyM hyeq
      have hzeq : z = M := by
        rcases max_choice x (max y z) with h | h
        · exact absurd (hmaxyz.trans h).symm hxeq
        · rcases max_choice y z with h2 | h2
          · exact absurd (hmaxyz.trans (h.trans h2)).symm hyeq
          · exact (hmaxyz.trans (h.trans h2)).symm
      have hH : 4 + (M - y)/(M - m) - (M - x)/(M - m) = 4 + (x - y)/(M - m) := by
        field_simp
        ring
      rw [hH]
      set u := (x - y)/(M - m) with hu_def
      have huρ : u * (M - m) = x - y := div_mul_cancel₀ _ hρne
      have hu1 : u < 1 := (div_lt_one hρ).mpr (by linarith)
      have hum : -1 < u := by
        rw [hu_def, lt_div_iff₀ hρ]; linarith
      simp only [Prod.mk.injEq]
      refine ⟨?_, ?_, ?_⟩
      · rcases lt_or_le u 0 with hu0 | hu0
        · rw [hls_v_sector2 m M ((4 + u)/6 + 1/2 + 1/3) 1 (by push_cast; linarith)
            (by push_cast; linarith)]
          have hxy : x < y := by
            have := mul_neg_of_neg_of_pos hu0 hρ
            linarith [huρ]
          have hmin : m = x := by
            rw [hminyz]
            exact min_eq_left (le_min (le_of_lt hxy) (by rw [hzeq]; exact hxM))
          linarith
        · rw [hls_v_sector3 m M ((4 + u)/6 + 1/2 + 1/3) 1 (by push_cast; linarith)
            (by push_cast; linarith)]
          have hyx : y ≤ x := by
            have := mul_nonneg hu0 hρ.le
            linarith [huρ]
          have hmin : m = y := by
            rw [hminyz, show min y z = y from min_eq_left (show y ≤ z by
              rw [hzeq]; exact hyM)]
            exact min_eq_right hyx
          push_cast
          linear_combination -huρ - hmin
      · rcases lt_or_le u 0 with hu0 | hu0
        · rw [hls_v_sector1 m M ((4 + u)/6 + 1/2) 1 (by push_cast; linarith)
            (by push_cast; linarith)]
          have hxy : x < y := by
            have := mul_neg_of_neg_of_pos hu0 hρ
            linarith [huρ]
          have hmin : m = x := by
            rw [hminyz]
            exact min_eq_left (le_min (le_of_lt hxy) (by rw [hzeq]; exact hxM))
          push_cast
          linear_combination huρ - hmin
        · rw [hls_v_sector2 m M ((4 + u)/6 + 1/2) 1 (by push_cast; linarith)
            (by push_cast; linarith)]
          have hyx : y ≤ x := by
            have := mul_nonneg hu0 hρ.le
            linarith [huρ]
          have hmin : m = y := by
            rw [hminyz, show min y z = y from min_eq_left (show y ≤ z by
              rw [hzeq]; exact hyM)]
            exact min_eq_right hyx
          linarith
      · rw [hls_v_sector4 m M ((4 + u)/6 + 1/2 - 1/3) 0 (by push_cast; linarith)
          (by push_cast; linarith)]
        linarith

theorem hls_roundtrip_reflect (x y z : ℚ) (hx0 : 0 ≤ x) (hx1 : x ≤ 1)
    (hy0 : 0 ≤ y) (hy1 : y ≤ 1) (hz0 : 0 ≤ z) (hz1 : z ≤ 1) :
    hls_to_rgb (pymod ((rgb_to_hls x y z).1 + 1/2) 1)
        (rgb_to_hls x y z).2.1 (rgb_to_hls x y z).2.2 =
      (max x (max y z) + min x (min y z) - x,
       max x (max y z) + min x (min y z) - y,
       max x (max y z) + min x (min y z) - z) := by
  have hmx : min x (min y z) ≤ x := min_le_left _ _
  have hmy : min x (min y z) ≤ y := le_trans (min_le_right _ _) (min_le_left _ _)
  have hmz : min x (min y z) ≤ z := le_trans (min_le_right _ _) (min_le_right _ _)
  have hxM : x ≤ max x (max y z) := le_max_left _ _
  have hyM : y ≤ max x (max y z) := le_trans (le_max_left _ _) (le_max_right _ _)
  have hzM : z ≤ max x (max y z) := le_trans (le_max_right _ _) (le_max_right _ _)
  simp only [rgb_to_hls]
  by_cases heq : min x (min y z) = max x (max y z)
  · rw [if_pos heq]
    dsimp only
    simp only [hls_to_rgb, if_true]
    have hxm : x = min x (min y z) := le_antisymm (by rw [heq]; exact hxM) hmx
    have hym : y = min x (min y z) := le_antisymm (by rw [heq]; exact hyM) hmy
    have hzm : z = min x (min y z) := le_antisymm (by rw [heq]; exact hzM) hmz
    simp only [Prod.mk.injEq]
    refine ⟨by linarith, by linarith, by linarith⟩
  · rw [if_neg heq]
    dsimp only
    have hlt : min x (min y z) < max x (max y z) :=
      lt_of_le_of_ne (le_trans hmx hxM) heq
    have hρ : (0:ℚ) < max x (max y z) - min x (min y z) := by linarith
    have hm0 : 0 ≤ min x (min y z) := le_min hx0 (le_min hy0 hz0)
    have hM1 : max x (max y z) ≤ 1 := max_le hx1 (max_le hy1 hz1)
    have hsum : (0:ℚ) < max x (max y z) + min x (min y z) := by linarith
    have hsum2 : max x (max y z) + min x (min y z) < 2 := by linarith
    have hsumne : max x (max y z) + min x (min y z) ≠ 0 := ne_of_gt hsum
    have h2ne : 2 - (max x (max y z) + min x (min y z)) ≠ 0 := by linarith
    by_cases hL : (max x (max y z) + min x (min y z))/2 ≤ 1/2
    · rw [if_pos hL]
      simp only [hls_to_rgb]
      rw [if_neg (ne_of_gt (div_pos hρ hsum))]
      rw [if_pos hL]
      rw [show (max x (max y z) + min x (min y z))/2 *
          (1 + (max x (max y z) - min x (min y z))/(max x (max y z) + min x (min y z))) =
          max x (max y z) from by
        field_simp [hsumne]
        ring]
      rw [show 2 * ((max x (max y z) + min x (min y z))/2) - max x (max y z) =
          min x (min y z) from by ring]
      exact hls_v_reflect_channels x y z _ _ hxM hyM hzM hmx hmy hmz rfl rfl hlt
    · rw [if_neg hL]
      simp only [hls_to_rgb]
      rw [if_neg (ne_of_gt (div_pos hρ (by linarith)))]
      rw [if_neg hL]
      rw [show (max x (max y z) + min x (min y z))/2 +
          (max x (max y z) - min x (min y z))/(2 - (max x (max y z) + min x (min y z))) -
          (max x (max y z) + min x (min y z))/2 *
          ((max x (max y z) - min x (min y z))/(2 - (max x (max y z) + min x (min y z)))) =
          max x (max y z) from by
        field_simp
        ring]
      rw [show 2 * ((max x (max y z) + min x (min y z))/2) - max x (max y z) =
          min x (min y z) from by ring]
      exact hls_v_reflect_channels x y z _ _ hxM hyM hzM hmx hmy hmz rfl rfl hlt


theorem complementary_color_reflect (a b c : ℤ)
    (ha0 : 0 ≤ a) (ha1 : a ≤ 255) (hb0 : 0 ≤ b) (hb1 : b ≤ 255)
    (hc0 : 0 ≤ c) (hc1 : c ≤ 255) :
    complementary_color (a, b, c) =
      (max a (max b c) + min a (min b c) - a,
       max a (max b c) + min a (min b c) - b,
       max a (max b c) + min a (min b c) - c) := by
  have h255 : (0:ℚ) < 255 := by norm_num
  have hx0 : (0:ℚ) ≤ (a:ℚ)/255 := div_nonneg (by exact_mod_cast ha0) (by norm_num)
  have hx1 : (a:ℚ)/255 ≤ 1 := by
    rw [div_le_one h255]; exact_mod_cast ha1
  have hy0 : (0:ℚ) ≤ (b:ℚ)/255 := div_nonneg (by exact_mod_cast hb0) (by norm_num)
  have hy1 : (b:ℚ)/255 ≤ 1 := by
    rw [div_le_one h255]; exact_mod_cast hb1
  have hz0 : (0:ℚ) ≤ (c:ℚ)/255 := div_nonneg (by exact_mod_cast hc0) (by norm_num)
  have hz1 : (c:ℚ)/255 ≤ 1 := by
    rw [div_le_one h255]; exact_mod_cast hc1
  simp only [complementary_color]
  rw [hls_roundtrip_reflect _ _ _ hx0 hx1 hy0 hy1 hz0 hz1]
  simp only [Prod.mk.injEq]
  refine ⟨?_, ?_, ?_⟩
  · rw [show (max ((a:ℚ)/255) (max ((b:ℚ)/255) ((c:ℚ)/255)) +
        min ((a:ℚ)/255) (min ((b:ℚ)/255) ((c:ℚ)/255)) - (a:ℚ)/255) * 255 =
        ((max a (max b c) + min a (min b c) - a : ℤ) : ℚ) from by
      rw [max_div_div_right h255.le, max_div_div_right h255.le,
        min_div_div_right h255.le, min_div_div_right h255.le]
      push_cast [Int.cast_max, Int.cast_min]
      ring]
    exact pyRound_intCast _
  · rw [show (max ((a:ℚ)/255) (max ((b:ℚ)/255) ((c:ℚ)/255)) +
        min ((a:ℚ)/255) (min ((b:ℚ)/255) ((c:ℚ)/255)) - (b:ℚ)/255) * 255 =
        ((max a (max b c) + min a (min b c) - b : ℤ) : ℚ) from by
      rw [max_div_div_right h255.le, max_div_div_right h255.le,
        min_div_div_right h255.le, min_div_div_right h255.le]
      push_cast [Int.cast_max, Int.cast_min]
      ring]
    exact pyRound_intCast _
  · rw [show (max ((a:ℚ)/255) (max ((b:ℚ)/255) ((c:ℚ)/255)) +
        min ((a:ℚ)/255) (min ((b:ℚ)/255) ((c:ℚ)/255)) - (c:ℚ)/255) * 255 =
        ((max a (max b c) + min a (min b c) - c : ℤ) : ℚ) from by
      rw [max_div_div_right h255.le, max_div_div_right h255.le,
        min_div_div_right h255.le, min_div_div_right h255.le]
      push_cast [Int.cast_max, Int.cast_min]
      ring]
    exact pyRound_intCast _

/-! ### Lemmas about the clustering engine -/

theorem farthestGo_mem (cs : List Point) (best : Point) (bd : ℚ) (ys : List Point) :
    farthestGo cs best bd ys = best ∨ farthestGo cs best bd ys ∈ ys := by
  induction ys generalizing best bd with
  | nil => left; rfl
  | cons y ys ih =>
    simp only [farthestGo]
    by_cases h : bd < distToNearest cs y
    · rw [if_pos h]
      rcases ih y (distToNearest cs y) with h2 | h2
      · right; rw [h2]; exact List.mem_cons_self _ _
      · right; exact List.mem_cons_of_mem _ h2
    · rw [if_neg h]
      rcases ih best bd with h2 | h2
      · left; exact h2
      · right; exact List.mem_cons_of_mem _ h2

theorem reseedPoint_mem (cs xs : List Point) (h : xs ≠ []) :
    reseedPoint cs xs ∈ xs := by
  cases xs with
  | nil => exact absurd rfl h
  | cons x rest =>
    simp only [reseedPoint]
    rcases farthestGo_mem cs x (distToNearest cs x) rest with h2 | h2
    · rw [h2]; exact List.mem_cons_self _ _
    · exact List.mem_cons_of_mem _ h2

theorem list_sum_le_mul (l : List ℚ) (B : ℚ) (h : ∀ q ∈ l, q ≤ B) :
    l.sum ≤ l.length * B := by
  induction l with
  | nil => simp
  | cons q qs ih =>
    simp only [List.sum_cons, List.length_cons]
    have h1 := h q (List.mem_cons_self _ _)
    have h2 := ih (fun r hr => h r (List.mem_cons_of_mem _ hr))
    push_cast
    linarith

theorem coord_div_bounds (s : List ℚ) (n : ℕ) (hn : 0 < n) (hlen : s.length = n)
    (h0 : ∀ q ∈ s, 0 ≤ q) (h1 : ∀ q ∈ s, q ≤ 255) :
    0 ≤ s.sum / (n : ℚ) ∧ s.sum / (n : ℚ) ≤ 255 := by
  have hnq : (0:ℚ) < (n : ℚ) := by exact_mod_cast hn
  constructor
  · exact div_nonneg (List.sum_nonneg h0) hnq.le
  · rw [div_le_iff₀ hnq]
    have := list_sum_le_mul s 255 h1
    rw [hlen] at this
    linarith

theorem meanP_inRange (l : List Point) (hne : l ≠ []) (h : ∀ p ∈ l, inRangeP p) :
    inRangeP (meanP l) := by
  have hn : 0 < l.length := List.length_pos.mpr hne
  have hb1 := coord_div_bounds (l.map (fun p => p.1)) l.length hn
    (List.length_map _ _)
    (fun q hq => by
      rcases List.mem_map.mp hq with ⟨p, hp, rfl⟩; exact (h p hp).1)
    (fun q hq => by
      rcases List.mem_map.mp hq with ⟨p, hp, rfl⟩; exact (h p hp).2.1)
  have hb2 := coord_div_bounds (l.map (fun p => p.2.1)) l.length hn
    (List.length_map _ _)
    (fun q hq => by
      rcases List.mem_map.mp hq with ⟨p, hp, rfl⟩; exact (h p hp).2.2.1)
    (fun q hq => by
      rcases List.mem_map.mp hq with ⟨p, hp, rfl⟩; exact (h p hp).2.2.2.1)
  have hb3 := coord_div_bounds (l.map (fun p => p.2.2)) l.length hn
    (List.length_map _ _)
    (fun q hq => by
      rcases List.mem_map.mp hq with ⟨p, hp, rfl⟩; exact (h p hp).2.2.2.2.1)
    (fun q hq => by
      rcases List.mem_map.mp hq with ⟨p, hp, rfl⟩; exact (h p hp).2.2.2.2.2)
  exact ⟨hb1.1, hb1.2, hb2.1, hb2.2, hb3.1, hb3.2⟩

theorem updateCentroid_inRange (xs cs : List Point) (j : ℕ) (hne : xs ≠ [])
    (h : ∀ p ∈ xs, inRangeP p) : inRangeP (updateCentroid xs cs j) := by
  simp only [updateCentroid]
  by_cases hm : clusterMembers xs cs j = []
  · rw [if_pos hm]
    exact h _ (reseedPoint_mem cs xs hne)
  · rw [if_neg hm]
    exact meanP_inRange _ hm (fun p hp => h p (List.mem_of_mem_filter hp))

theorem stepCentroids_length (xs cs : List Point) :
    (stepCentroids xs cs).length = cs.length := by
  simp [stepCentroids]

theorem stepCentroids_inRange (xs cs : List Point) (hne : xs ≠ [])
    (h : ∀ p ∈ xs, inRangeP p) : ∀ c ∈ stepCentroids xs cs, inRangeP c := by
  intro c hc
  rcases List.mem_map.mp hc with ⟨j, _, rfl⟩
  exact updateCentroid_inRange xs cs j hne h

theorem lloyd_length (fuel : ℕ) (xs cs : List Point) :
    (lloyd fuel xs cs).length = cs.length := by
  induction fuel generalizing cs with
  | zero => rfl
  | succ n ih =>
    simp only [lloyd]
    by_cases h : stepCentroids xs cs = cs
    · rw [if_pos h]
    · rw [if_neg h, ih, stepCentroids_length]

theorem lloyd_inRange (fuel : ℕ) (xs : List Point) (hne : xs ≠ [])
    (hxs : ∀ p ∈ xs, inRangeP p) :
    ∀ cs, (∀ c ∈ cs, inRangeP c) → ∀ c ∈ lloyd fuel xs cs, inRangeP c := by
  induction fuel with
  | zero => intro cs hcs; exact hcs
  | succ n ih =>
    intro cs hcs
    simp only [lloyd]
    by_cases h : stepCentroids xs cs = cs
    · rw [if_pos h]; exact hcs
    · rw [if_neg h]
      exact ih _ (stepCentroids_inRange xs cs hne hxs)

theorem kmeans_ok (xs : List Point) (k : ℕ) (hne : xs ≠ []) (hk1 : 1 ≤ k)
    (hk2 : k ≤ xs.length) (hxs : ∀ p ∈ xs, inRangeP p) :
    kmeans xs k = .ok (lloyd 300 xs (xs.take k)) ∧
      (lloyd 300 xs (xs.take k)).length = k ∧
      ∀ c ∈ lloyd 300 xs (xs.take k), inRangeP c := by
  refine ⟨?_, ?_, ?_⟩
  · simp only [kmeans]
    rw [if_neg hne, if_neg (by omega)]
  · rw [lloyd_length, List.length_take]
    omega
  · exact lloyd_inRange 300 xs hne hxs _
      (fun c hc => hxs c (List.mem_of_mem_take hc))

theorem truncQ_bounds (q : ℚ) (h0 : 0 ≤ q) (h1 : q ≤ 255) :
    0 ≤ truncQ q ∧ truncQ q ≤ 255 := by
  rw [truncQ, if_pos h0]
  refine ⟨Int.le_floor.mpr (by exact_mod_cast h0), ?_⟩
  have h2 : (⌊q⌋ : ℚ) ≤ 255 := le_trans (Int.floor_le q) h1
  exact_mod_cast h2

/-! ### Lemmas about hex formatting and parsing -/

set_option maxRecDepth 8000

theorem pyIntHex16_format02x :
    ∀ n : ℕ, n < 256 → pyIntHex16 (format02x (n : ℤ)) = some (n : ℤ) := by
  decide

theorem format02x_hexdigits :
    ∀ n : ℕ, n < 256 →
      (format02x (n : ℤ)).length = 2 ∧ (format02x (n : ℤ)).all isHexDigitChar = true := by
  decide

theorem hex_to_rgb_of_format (n1 n2 n3 : ℕ) (h1 : n1 < 256) (h2 : n2 < 256)
    (h3 : n3 < 256) :
    hex_to_rgb ('#' :: (format02x (n1 : ℤ) ++ format02x (n2 : ℤ) ++ format02x (n3 : ℤ))) =
      .ok ((n1 : ℤ), (n2 : ℤ), (n3 : ℤ)) := by
  obtain ⟨hl1, hh1⟩ := format02x_hexdigits n1 h1
  obtain ⟨hl2, hh2⟩ := format02x_hexdigits n2 h2
  obtain ⟨hl3, hh3⟩ := format02x_hexdigits n3 h3
  have k1 := pyIntHex16_format02x n1 h1
  have k2 := pyIntHex16_format02x n2 h2
  have k3 := pyIntHex16_format02x n3 h3
  obtain ⟨a1, b1, he1⟩ := List.length_eq_two.mp hl1
  obtain ⟨a2, b2, he2⟩ := List.length_eq_two.mp hl2
  obtain ⟨a3, b3, he3⟩ := List.length_eq_two.mp hl3
  rw [he1] at hh1 k1
  rw [he2] at hh2 k2
  rw [he3] at hh3 k3
  have ha1 : isHexDigitChar a1 = true := by
    simp only [List.all_cons, Bool.and_eq_true] at hh1
    exact hh1.1
  have hne : ¬ (a1 = '#') := by
    intro h
    rw [h] at ha1
    exact absurd ha1 (by decide)
  simp only [hex_to_rgb, he1, he2, he3, List.cons_append, List.nil_append,
    List.dropWhile_cons]
  simp only [decide_eq_true_eq, if_true]
  rw [if_neg hne]
  simp only [List.length_cons, List.length_nil]
  rw [if_neg (by omega)]
  simp only [List.take, List.drop]
  rw [k1, k2, k3]

set_option maxRecDepth 512

theorem hexDigit_not_special (c : Char) (h : isHexDigitChar c = true) :
    ¬ (c = '+') ∧ ¬ (c = '-') ∧ ¬ (c = '_') ∧ ¬ (c = 'x') ∧ ¬ (c = 'X') ∧
      isPySpace c = false := by
  refine ⟨?_, ?_, ?_, ?_, ?_, ?_⟩
  · intro hc; rw [hc] at h; exact absurd h (by decide)
  · intro hc; rw [hc] at h; exact absurd h (by decide)
  · intro hc; rw [hc] at h; exact absurd h (by decide)
  · intro hc; rw [hc] at h; exact absurd h (by decide)
  · intro hc; rw [hc] at h; exact absurd h (by decide)
  · have hc : (48 ≤ c.toNat ∧ c.toNat ≤ 57) ∨ (97 ≤ c.toNat ∧ c.toNat ≤ 102) ∨
        (65 ≤ c.toNat ∧ c.toNat ≤ 70) := by
      simpa only [isHexDigitChar, Bool.or_eq_true, Bool.and_eq_true,
        decide_eq_true_eq, or_assoc] using h
    simp only [isPySpace, Bool.or_eq_false_iff, Bool.and_eq_false_iff,
      decide_eq_false_iff_not]
    omega

theorem pyIntHex16_two_hex (a b : Char) (ha : isHexDigitChar a = true)
    (hb : isHexDigitChar b = true) :
    pyIntHex16 [a, b] = some ((16 * hexDigitVal a + hexDigitVal b : ℕ) : ℤ) := by
  obtain ⟨hap, ham, hau, hax, haX, has⟩ := hexDigit_not_special a ha
  obtain ⟨hbp, hbm, hbu, hbx, hbX, hbs⟩ := hexDigit_not_special b hb
  have hstrip : stripSpaces [a, b] = [a, b] := by
    simp [stripSpaces, List.dropWhile_cons, has, hbs]
  simp only [pyIntHex16, hstrip]
  rw [if_neg hap, if_neg ham]
  have hpre : stripHexPrefix [a, b] = [a, b] := by
    simp only [stripHexPrefix]
    rw [if_neg]
    intro hcond
    exact hcond.2.elim (fun h => hbx h) (fun h => hbX h)
  simp only [parseHexRun, hpre]
  have hrun : hexRunOk [a, b] = true := by
    simp [hexRunOk, hexRunTail, ha, hb, hau, hbu]
  rw [if_pos hrun]
  have hfil : ([a, b].filter (fun c => c ≠ '_')) = [a, b] := by
    simp [List.filter_cons, hau, hbu]
  rw [hfil]
  simp [hexDigitsVal]

theorem pyIntHex16_of_hex2 (w : List Char) (hlen : w.length = 2)
    (hall : w.all isHexDigitChar = true) : (pyIntHex16 w).isSome = true := by
  obtain ⟨a, b, rfl⟩ := List.length_eq_two.mp hlen
  simp only [List.all_cons, List.all_nil, Bool.and_eq_true] at hall
  rw [pyIntHex16_two_hex a b hall.1 hall.2.1]
  rfl

/-- C5: hex round-trip.  For every RGB triple whose channels are integers in
`[0,255]`, `hex_to_rgb (rgb_to_hex c) = c`. -/
theorem hex_round_trip (c : ℤ × ℤ × ℤ)
    (h1 : 0 ≤ c.1) (h2 : c.1 ≤ 255) (h3 : 0 ≤ c.2.1) (h4 : c.2.1 ≤ 255)
    (h5 : 0 ≤ c.2.2) (h6 : c.2.2 ≤ 255) :
    hex_to_rgb (rgb_to_hex c) = .ok c := by
  have hn1 : c.1.toNat < 256 := by omega
  have hn2 : c.2.1.toNat < 256 := by omega
  have hn3 : c.2.2.toNat < 256 := by omega
  have key := hex_to_rgb_of_format c.1.toNat c.2.1.toNat c.2.2.toNat hn1 hn2 hn3
  rw [Int.toNat_of_nonneg h1, Int.toNat_of_nonneg h3, Int.toNat_of_nonneg h5] at key
  simp only [rgb_to_hex]
  exact key

/-- C5 witness at the concrete triple (0, 128, 255). -/
theorem hex_round_trip_witness :
    (0 : ℤ) ≤ 0 ∧ (0 : ℤ) ≤ 255 ∧ (0 : ℤ) ≤ 128 ∧ (128 : ℤ) ≤ 255 ∧
      (0 : ℤ) ≤ 255 ∧ (255 : ℤ) ≤ 255 ∧
      hex_to_rgb (rgb_to_hex ((0 : ℤ), (128 : ℤ), (255 : ℤ))) = .ok (0, 128, 255) :=
  ⟨by norm_num, by norm_num, by norm_num, by norm_num, by norm_num, by norm_num,
    hex_round_trip ((0 : ℤ), (128 : ℤ), (255 : ℤ)) (by norm_num) (by norm_num)
      (by norm_num) (by norm_num) (by norm_num) (by norm_num)⟩

/-- C6 counterexample: on `"##aabbcc"` the source accepts and decodes the
string (its `lstrip` removes every leading `#`), while the claim demands a
`FormatError` (after stripping one `#` the remainder `"#aabbcc"` is not six
hexadecimal characters). -/
theorem hex_to_rgb_lstrip_counterexample :
    hex_to_rgb ['#', '#', 'a', 'a', 'b', 'b', 'c', 'c'] = .ok (170, 187, 204) ∧
      specHexAccept ['#', '#', 'a', 'a', 'b', 'b', 'c', 'c'] = false := by
  constructor
  · decide
  · decide

/-- C6 amended: `hex_to_rgb` strips **all** leading `#` characters, then —
for ASCII inputs, the domain on which the embedded `int(·, 16)` agrees with
CPython (CPython also folds Unicode decimal digits and whitespace to ASCII
before parsing, which the embedding does not model) — fails with
`FormatError` exactly when the remainder does not consist of six characters
whose three two-character slices are each accepted by Python `int(·, 16)`;
in particular a remainder of six hexadecimal digits is always accepted and
decoded. -/
theorem hex_to_rgb_amended (s : List Char) (_hascii : ∀ c ∈ s, c.toNat < 128) :
    (hex_to_rgb s = .error .FormatError ↔
      ¬ ((s.dropWhile (fun c => c = '#')).length = 6 ∧
        (pyIntHex16 ((s.dropWhile (fun c => c = '#')).take 2)).isSome = true ∧
        (pyIntHex16 (((s.dropWhile (fun c => c = '#')).drop 2).take 2)).isSome = true ∧
        (pyIntHex16 (((s.dropWhile (fun c => c = '#')).drop 4).take 2)).isSome = true)) ∧
    ((s.dropWhile (fun c => c = '#')).length = 6 →
      (s.dropWhile (fun c => c = '#')).all isHexDigitChar = true →
      ∃ t, hex_to_rgb s = .ok t) := by
  constructor
  · simp only [hex_to_rgb]
    generalize s.dropWhile (fun c => c = '#') = v
    by_cases hlen : v.length = 6
    · rw [if_neg (not_not_intro hlen)]
      rcases hx1 : pyIntHex16 (v.take 2) with _ | r1 <;>
        rcases hx2 : pyIntHex16 ((v.drop 2).take 2) with _ | r2 <;>
          rcases hx3 : pyIntHex16 ((v.drop 4).take 2) with _ | r3 <;>
            simp [hx1, hx2, hx3, hlen]
    · rw [if_pos hlen]
      simp [hlen]
  · intro hlen hall
    simp only [hex_to_rgb]
    rw [if_neg (not_not_intro hlen)]
    have hmem : ∀ c ∈ s.dropWhile (fun c => c = '#'), isHexDigitChar c = true := by
      simpa [List.all_eq_true] using hall
    have hs1 : (pyIntHex16 ((s.dropWhile (fun c => c = '#')).take 2)).isSome = true := by
      refine pyIntHex16_of_hex2 _ ?_ ?_
      · rw [List.length_take, hlen]; rfl
      · rw [List.all_eq_true]
        intro c hc
        exact hmem c (List.mem_of_mem_take hc)
    have hs2 : (pyIntHex16 (((s.dropWhile (fun c => c = '#')).drop 2).take 2)).isSome = true := by
      refine pyIntHex16_of_hex2 _ ?_ ?_
      · rw [List.length_take, List.length_drop, hlen]; rfl
      · rw [List.all_eq_true]
        intro c hc
        exact hmem c (List.mem_of_mem_drop (List.mem_of_mem_take hc))
    have hs3 : (pyIntHex16 (((s.dropWhile (fun c => c = '#')).drop 4).take 2)).isSome = true := by
      refine pyIntHex16_of_hex2 _ ?_ ?_
      · rw [List.length_take, List.length_drop, hlen]; rfl
      · rw [List.all_eq_true]
        intro c hc
        exact hmem c (List.mem_of_mem_drop (List.mem_of_mem_take hc))
    obtain ⟨r1, he1⟩ := Option.isSome_iff_exists.mp hs1
    obtain ⟨r2, he2⟩ := Option.isSome_iff_exists.mp hs2
    obtain ⟨r3, he3⟩ := Option.isSome_iff_exists.mp hs3
    rw [he1, he2, he3]
    exact ⟨(r1, r2, r3), rfl⟩

/-- C6 amended witness at `"#ab01ff"` (an ASCII string). -/
theorem hex_to_rgb_amended_witness :
    (∀ c ∈ ['#', 'a', 'b', '0', '1', 'f', 'f'], c.toNat < 128) ∧
      (['#', 'a', 'b', '0', '1', 'f', 'f'].dropWhile (fun c => c = '#')).length = 6 ∧
      (['#', 'a', 'b', '0', '1', 'f', 'f'].dropWhile (fun c => c = '#')).all
        isHexDigitChar = true ∧
      ∃ t, hex_to_rgb ['#', 'a', 'b', '0', '1', 'f', 'f'] = .ok t :=
  ⟨by decide, by decide, by decide,
    (hex_to_rgb_amended ['#', 'a', 'b', '0', '1', 'f', 'f'] (by decide)).2
      (by decide) (by decide)⟩

theorem lloyd_fixpoint (fuel : ℕ) (xs cs : List Point)
    (h : stepCentroids xs cs = cs) : lloyd (fuel + 1) xs cs = cs := by
  simp only [lloyd]
  rw [if_pos h]

theorem lloyd_step_ne (fuel : ℕ) (xs cs : List Point)
    (h : ¬ stepCentroids xs cs = cs) :
    lloyd (fuel + 1) xs cs = lloyd fuel xs (stepCentroids xs cs) := by
  simp only [lloyd]
  rw [if_neg h]

theorem stepCentroids_single_eval :
    stepCentroids [((0:ℚ), (0:ℚ), (0:ℚ))] [((0:ℚ), (0:ℚ), (0:ℚ))] =
      [((0:ℚ), (0:ℚ), (0:ℚ))] := by
  norm_num [stepCentroids, show List.range 1 = [0] from rfl, updateCentroid,
    clusterMembers, nearestIdx, nearestGo, sqDist, meanP, List.filter_cons,
    reseedPoint, distToNearest, farthestGo]

theorem stepCentroids_c4_eval1 :
    stepCentroids
      [((0:ℚ), (0:ℚ), (0:ℚ)), ((1:ℚ), (1:ℚ), (1:ℚ)), ((1:ℚ), (1:ℚ), (1:ℚ))]
      [((0:ℚ), (0:ℚ), (0:ℚ))] = [((2/3:ℚ), (2/3:ℚ), (2/3:ℚ))] := by
  norm_num [stepCentroids, show List.range 1 = [0] from rfl, updateCentroid,
    clusterMembers, nearestIdx, nearestGo, sqDist, meanP, List.filter_cons,
    reseedPoint, distToNearest, farthestGo]
  intro h
  exact absurd h (List.cons_ne_nil _ _)

theorem stepCentroids_c4_eval2 :
    stepCentroids
      [((0:ℚ), (0:ℚ), (0:ℚ)), ((1:ℚ), (1:ℚ), (1:ℚ)), ((1:ℚ), (1:ℚ), (1:ℚ))]
      [((2/3:ℚ), (2/3:ℚ), (2/3:ℚ))] = [((2/3:ℚ), (2/3:ℚ), (2/3:ℚ))] := by
  norm_num [stepCentroids, show List.range 1 = [0] from rfl, updateCentroid,
    clusterMembers, nearestIdx, nearestGo, sqDist, meanP, List.filter_cons,
    reseedPoint, distToNearest, farthestGo]
  intro h
  exact absurd h (List.cons_ne_nil _ _)

theorem kmeans_single_eval :
    kmeans [((0:ℚ), (0:ℚ), (0:ℚ))] 1 = .ok [((0:ℚ), (0:ℚ), (0:ℚ))] := by
  rw [kmeans, if_neg (by decide), if_neg (by decide)]
  rw [show [((0:ℚ), (0:ℚ), (0:ℚ))].take 1 = [((0:ℚ), (0:ℚ), (0:ℚ))] from rfl,
    show (300:ℕ) = 299 + 1 from rfl, lloyd_fixpoint 299 _ _ stepCentroids_single_eval]

theorem kmeans_c4_eval :
    kmeans [((0:ℚ), (0:ℚ), (0:ℚ)), ((1:ℚ), (1:ℚ), (1:ℚ)), ((1:ℚ), (1:ℚ), (1:ℚ))] 1 =
      .ok [((2/3:ℚ), (2/3:ℚ), (2/3:ℚ))] := by
  rw [kmeans, if_neg (by decide), if_neg (by decide)]
  rw [show [((0:ℚ), (0:ℚ), (0:ℚ)), ((1:ℚ), (1:ℚ), (1:ℚ)), ((1:ℚ), (1:ℚ), (1:ℚ))].take 1 =
      [((0:ℚ), (0:ℚ), (0:ℚ))] from rfl,
    show (300:ℕ) = 299 + 1 from rfl,
    lloyd_step_ne 299 _ _ (by
      rw [stepCentroids_c4_eval1]
      simp only [List.cons.injEq, Prod.mk.injEq, and_true, ne_eq]
      norm_num),
    stepCentroids_c4_eval1,
    show (299:ℕ) = 298 + 1 from rfl,
    lloyd_fixpoint 298 _ _ stepCentroids_c4_eval2]

theorem pixels_map_c4_eval :
    [((0:ℤ),(0:ℤ),(0:ℤ)), ((1:ℤ),(1:ℤ),(1:ℤ)), ((1:ℤ),(1:ℤ),(1:ℤ))].map
      (fun p => ((p.1 : ℚ), (p.2.1 : ℚ), (p.2.2 : ℚ))) =
      [((0:ℚ), (0:ℚ), (0:ℚ)), ((1:ℚ), (1:ℚ), (1:ℚ)), ((1:ℚ), (1:ℚ), (1:ℚ))] := by
  norm_num

theorem extract_palette_c4_eval :
    extract_palette [((0:ℤ),(0:ℤ),(0:ℤ)), ((1:ℤ),(1:ℤ),(1:ℤ)), ((1:ℤ),(1:ℤ),(1:ℤ))] 1 =
      .ok [PaletteColor.mk (0, 0, 0)] := by
  simp only [extract_palette, pixels_map_c4_eval, kmeans_c4_eval, Except.map]
  have ht : truncCentroid ((2/3:ℚ), (2/3:ℚ), (2/3:ℚ)) = (0, 0, 0) := by
    simp only [truncCentroid, truncQ]
    rw [if_pos (by norm_num), show ⌊(2/3 : ℚ)⌋ = 0 from by
      rw [Int.floor_eq_iff]; norm_num]
  simp [ht, sortByLum, insertByLum]

theorem roundClamp_c4_eval :
    roundClampCentroid ((2/3:ℚ), (2/3:ℚ), (2/3:ℚ)) = (1, 1, 1) := by
  have hr : round ((2/3:ℚ)) = 1 := by
    rw [round_eq, show (2/3 : ℚ) + 1/2 = 7/6 from by norm_num,
      show ⌊(7/6 : ℚ)⌋ = 1 from by rw [Int.floor_eq_iff]; norm_num]
  simp [roundClampCentroid, hr]

theorem extract_palette_roundSpec_c4_eval :
    extract_palette_roundSpec
        [((0:ℤ),(0:ℤ),(0:ℤ)), ((1:ℤ),(1:ℤ),(1:ℤ)), ((1:ℤ),(1:ℤ),(1:ℤ))] 1 =
      .ok [PaletteColor.mk (1, 1, 1)] := by
  simp only [extract_palette_roundSpec, pixels_map_c4_eval, kmeans_c4_eval, Except.map]
  simp [roundClamp_c4_eval, sortByLum, insertByLum]

/-! ### Claim theorems for the palette assembler -/

/-- C1: for every `k ≥ 1` and every pixel-sample list with at least `k`
samples, all channels in `[0,255]`, `extract_palette` returns a palette of
exactly `k` entries whose channels are integers in `[0,255]`.  (The
clustering engine is the spec-modelled `kmeans`.) -/
theorem extract_palette_k_entries (pixels : List (ℤ × ℤ × ℤ)) (k : ℕ)
    (hk1 : 1 ≤ k) (hk2 : k ≤ pixels.length)
    (hpix : ∀ p ∈ pixels, 0 ≤ p.1 ∧ p.1 ≤ 255 ∧ 0 ≤ p.2.1 ∧ p.2.1 ≤ 255 ∧
      0 ≤ p.2.2 ∧ p.2.2 ≤ 255) :
    ∃ pal, extract_palette pixels k = .ok pal ∧ pal.length = k ∧
      ∀ e ∈ pal, 0 ≤ e.rgb.1 ∧ e.rgb.1 ≤ 255 ∧ 0 ≤ e.rgb.2.1 ∧ e.rgb.2.1 ≤ 255 ∧
        0 ≤ e.rgb.2.2 ∧ e.rgb.2.2 ≤ 255 := by
  have hne : pixels ≠ [] := by
    intro h
    rw [h] at hk2
    simp at hk2
    omega
  have hmapne : pixels.map (fun p => ((p.1 : ℚ), (p.2.1 : ℚ), (p.2.2 : ℚ))) ≠ [] := by
    simpa [List.map_eq_nil_iff] using hne
  have hmaplen : (pixels.map (fun p => ((p.1 : ℚ), (p.2.1 : ℚ), (p.2.2 : ℚ)))).length =
      pixels.length := List.length_map _ _
  have hrange : ∀ q ∈ pixels.map (fun p => ((p.1 : ℚ), (p.2.1 : ℚ), (p.2.2 : ℚ))),
      inRangeP q := by
    intro q hq
    rcases List.mem_map.mp hq with ⟨p, hp, rfl⟩
    obtain ⟨a1, a2, a3, a4, a5, a6⟩ := hpix p hp
    exact ⟨(by exact_mod_cast a1 : (0:ℚ) ≤ (p.1 : ℚ)),
      (by exact_mod_cast a2 : (p.1 : ℚ) ≤ 255),
      (by exact_mod_cast a3 : (0:ℚ) ≤ (p.2.1 : ℚ)),
      (by exact_mod_cast a4 : (p.2.1 : ℚ) ≤ 255),
      (by exact_mod_cast a5 : (0:ℚ) ≤ (p.2.2 : ℚ)),
      (by exact_mod_cast a6 : (p.2.2 : ℚ) ≤ 255)⟩
  obtain ⟨hok, hlen, hr⟩ := kmeans_ok _ k hmapne hk1 (by rw [hmaplen]; exact hk2) hrange
  refine ⟨(sortByLum ((lloyd 300 (pixels.map (fun p => ((p.1 : ℚ), (p.2.1 : ℚ), (p.2.2 : ℚ))))
      ((pixels.map (fun p => ((p.1 : ℚ), (p.2.1 : ℚ), (p.2.2 : ℚ)))).take k)).map
      truncCentroid)).map PaletteColor.mk, ?_, ?_, ?_⟩
  · simp only [extract_palette]
    rw [hok]
    rfl
  · rw [List.length_map, sortByLum_length, List.length_map, hlen]
  · intro e he
    rcases List.mem_map.mp he with ⟨t, ht, rfl⟩
    have ht2 := (sortByLum_mem _ t).mp ht
    rcases List.mem_map.mp ht2 with ⟨cq, hcq, rfl⟩
    obtain ⟨b1, b2, b3, b4, b5, b6⟩ := hr cq hcq
    obtain ⟨c1, c2⟩ := truncQ_bounds cq.1 b1 b2
    obtain ⟨c3, c4⟩ := truncQ_bounds cq.2.1 b3 b4
    obtain ⟨c5, c6⟩ := truncQ_bounds cq.2.2 b5 b6
    exact ⟨c1, c2, c3, c4, c5, c6⟩

/-- C1 witness at two samples, `k = 2`. -/
theorem extract_palette_k_entries_witness :
    1 ≤ 2 ∧ 2 ≤ ([((0:ℤ),(0:ℤ),(0:ℤ)), ((255:ℤ),(255:ℤ),(255:ℤ))]).length ∧
      ∃ pal, extract_palette [((0:ℤ),(0:ℤ),(0:ℤ)), ((255:ℤ),(255:ℤ),(255:ℤ))] 2 = .ok pal ∧
        pal.length = 2 ∧
        ∀ e ∈ pal, 0 ≤ e.rgb.1 ∧ e.rgb.1 ≤ 255 ∧ 0 ≤ e.rgb.2.1 ∧ e.rgb.2.1 ≤ 255 ∧
          0 ≤ e.rgb.2.2 ∧ e.rgb.2.2 ≤ 255 :=
  ⟨by norm_num, by decide,
    extract_palette_k_entries [((0:ℤ),(0:ℤ),(0:ℤ)), ((255:ℤ),(255:ℤ),(255:ℤ))] 2
      (by norm_num) (by decide) (by decide)⟩

/-- C2: the returned palette is sorted non-decreasing by the BT.709
luminance, and the sort is stable: for every key value, the entries with
that exact luminance keep the order in which the (spec-modelled) clustering
engine emitted their centroids. -/
theorem extract_palette_sorted_stable (pixels : List (ℤ × ℤ × ℤ)) (k : ℕ)
    (centers : List Point)
    (hc : kmeans (pixels.map (fun p => ((p.1 : ℚ), (p.2.1 : ℚ), (p.2.2 : ℚ)))) k =
      .ok centers) :
    extract_palette pixels k =
      .ok ((sortByLum (centers.map truncCentroid)).map PaletteColor.mk) ∧
    ((sortByLum (centers.map truncCentroid)).map PaletteColor.mk).Pairwise
      (fun e1 e2 => luminance e1.rgb ≤ luminance e2.rgb) ∧
    ∀ v : ℚ, (sortByLum (centers.map truncCentroid)).filter
        (fun t => luminance t = v) =
      (centers.map truncCentroid).filter (fun t => luminance t = v) := by
  refine ⟨?_, ?_, ?_⟩
  · simp only [extract_palette]
    rw [hc]
    rfl
  · rw [List.pairwise_map]
    exact sortByLum_sorted _
  · intro v
    exact sortByLum_filter_key _ v

/-- C2 witness: a single sample with `k = 1` and the engine output computed
explicitly. -/
theorem extract_palette_sorted_stable_witness :
    kmeans ([((0:ℤ),(0:ℤ),(0:ℤ))].map (fun p => ((p.1 : ℚ), (p.2.1 : ℚ), (p.2.2 : ℚ)))) 1 =
      .ok [((0:ℚ), (0:ℚ), (0:ℚ))] ∧
    extract_palette [((0:ℤ),(0:ℤ),(0:ℤ))] 1 =
      .ok ((sortByLum ([((0:ℚ), (0:ℚ), (0:ℚ))].map truncCentroid)).map PaletteColor.mk) := by
  have hmap : [((0:ℤ),(0:ℤ),(0:ℤ))].map (fun p => ((p.1 : ℚ), (p.2.1 : ℚ), (p.2.2 : ℚ))) =
      [((0:ℚ), (0:ℚ), (0:ℚ))] := by norm_num
  have hk : kmeans ([((0:ℤ),(0:ℤ),(0:ℤ))].map
      (fun p => ((p.1 : ℚ), (p.2.1 : ℚ), (p.2.2 : ℚ)))) 1 = .ok [((0:ℚ), (0:ℚ), (0:ℚ))] := by
    rw [hmap]
    exact kmeans_single_eval
  exact ⟨hk, (extract_palette_sorted_stable [((0:ℤ),(0:ℤ),(0:ℤ))] 1
    [((0:ℚ), (0:ℚ), (0:ℚ))] hk).1⟩

/-- C3: determinism — `extract_palette` is a pure function of the samples
and `k` (the engine is seeded with the fixed `random_state=0`), so two
calls on identical inputs return identical output. -/
theorem extract_palette_deterministic (p1 p2 : List (ℤ × ℤ × ℤ)) (k1 k2 : ℕ)
    (hp : p1 = p2) (hk : k1 = k2) :
    extract_palette p1 k1 = extract_palette p2 k2 := by
  rw [hp, hk]

/-- C3 witness at a concrete input. -/
theorem extract_palette_deterministic_witness :
    extract_palette [((3:ℤ),(1:ℤ),(0:ℤ))] 1 = extract_palette [((3:ℤ),(1:ℤ),(0:ℤ))] 1 :=
  extract_palette_deterministic [((3:ℤ),(1:ℤ),(0:ℤ))] [((3:ℤ),(1:ℤ),(0:ℤ))] 1 1 rfl rfl

/-- C4 counterexample: on samples `[(0,0,0),(1,1,1),(1,1,1)]` with `k = 1`
the engine's centroid is `(2/3, 2/3, 2/3)`; the source truncates
(`astype(int)`) and returns `(0,0,0)`, while the claim's round-to-nearest
conversion would return `(1,1,1)`. -/
theorem extract_palette_trunc_counterexample :
    extract_palette [((0:ℤ),(0:ℤ),(0:ℤ)), ((1:ℤ),(1:ℤ),(1:ℤ)), ((1:ℤ),(1:ℤ),(1:ℤ))] 1 =
      .ok [PaletteColor.mk (0, 0, 0)] ∧
    extract_palette_roundSpec
        [((0:ℤ),(0:ℤ),(0:ℤ)), ((1:ℤ),(1:ℤ),(1:ℤ)), ((1:ℤ),(1:ℤ),(1:ℤ))] 1 =
      .ok [PaletteColor.mk (1, 1, 1)] :=
  ⟨extract_palette_c4_eval, extract_palette_roundSpec_c4_eval⟩

/-- C4 amended: `extract_palette` converts each centroid by truncation
toward zero (`astype(int)`), not round-to-nearest, and applies no clamping;
on the engine's nonnegative centroids the truncation is the floor, at most
one below the real value. -/
theorem extract_palette_trunc_amended (pixels : List (ℤ × ℤ × ℤ)) (k : ℕ)
    (centers : List Point)
    (hc : kmeans (pixels.map (fun p => ((p.1 : ℚ), (p.2.1 : ℚ), (p.2.2 : ℚ)))) k =
      .ok centers) :
    extract_palette pixels k =
      .ok ((sortByLum (centers.map truncCentroid)).map PaletteColor.mk) ∧
    ∀ q : ℚ, 0 ≤ q → truncQ q = ⌊q⌋ ∧ ((⌊q⌋ : ℚ) ≤ q ∧ q - 1 < (⌊q⌋ : ℚ)) := by
  refine ⟨?_, ?_⟩
  · simp only [extract_palette]
    rw [hc]
    rfl
  · intro q hq
    exact ⟨by rw [truncQ, if_pos hq],
      Int.floor_le q, by linarith [Int.lt_floor_add_one q]⟩

/-- C4 amended witness at the counterexample input. -/
theorem extract_palette_trunc_amended_witness :
    kmeans ([((0:ℤ),(0:ℤ),(0:ℤ)), ((1:ℤ),(1:ℤ),(1:ℤ)), ((1:ℤ),(1:ℤ),(1:ℤ))].map
        (fun p => ((p.1 : ℚ), (p.2.1 : ℚ), (p.2.2 : ℚ)))) 1 =
      .ok [((2/3 : ℚ), (2/3 : ℚ), (2/3 : ℚ))] ∧
    extract_palette [((0:ℤ),(0:ℤ),(0:ℤ)), ((1:ℤ),(1:ℤ),(1:ℤ)), ((1:ℤ),(1:ℤ),(1:ℤ))] 1 =
      .ok ((sortByLum ([((2/3 : ℚ), (2/3 : ℚ), (2/3 : ℚ))].map truncCentroid)).map
        PaletteColor.mk) := by
  have hk : kmeans ([((0:ℤ),(0:ℤ),(0:ℤ)), ((1:ℤ),(1:ℤ),(1:ℤ)), ((1:ℤ),(1:ℤ),(1:ℤ))].map
      (fun p => ((p.1 : ℚ), (p.2.1 : ℚ), (p.2.2 : ℚ)))) 1 =
      .ok [((2/3 : ℚ), (2/3 : ℚ), (2/3 : ℚ))] := by
    rw [pixels_map_c4_eval]
    exact kmeans_c4_eval
  exact ⟨hk, (extract_palette_trunc_amended
    [((0:ℤ),(0:ℤ),(0:ℤ)), ((1:ℤ),(1:ℤ),(1:ℤ)), ((1:ℤ),(1:ℤ),(1:ℤ))] 1
    [((2/3 : ℚ), (2/3 : ℚ), (2/3 : ℚ))] hk).1⟩

/-- C9: palette extraction fails with the structured `EmptyInput` error on
an empty sample collection, with `InvalidArgument` when `k < 1` or `k`
exceeds the sample count, and succeeds otherwise — it never substitutes a
default for invalid input. -/
theorem extract_palette_errors (pixels : List (ℤ × ℤ × ℤ)) (k : ℕ) :
    (pixels = [] → extract_palette pixels k = .error .EmptyInput) ∧
    (pixels ≠ [] → (k < 1 ∨ pixels.length < k) →
      extract_palette pixels k = .error .InvalidArgument) ∧
    (pixels ≠ [] → 1 ≤ k → k ≤ pixels.length →
      ∃ pal, extract_palette pixels k = .ok pal) := by
  refine ⟨?_, ?_, ?_⟩
  · intro h
    subst h
    simp only [extract_palette, List.map_nil, kmeans, if_true]
    rfl
  · intro hne hbad
    have hmapne : pixels.map (fun p => ((p.1 : ℚ), (p.2.1 : ℚ), (p.2.2 : ℚ))) ≠ [] := by
      simpa [List.map_eq_nil_iff] using hne
    simp only [extract_palette, kmeans]
    rw [if_neg hmapne, if_pos (by rw [List.length_map]; exact hbad)]
    rfl
  · intro hne hk1 hk2
    have hmapne : pixels.map (fun p => ((p.1 : ℚ), (p.2.1 : ℚ), (p.2.2 : ℚ))) ≠ [] := by
      simpa [List.map_eq_nil_iff] using hne
    simp only [extract_palette, kmeans]
    rw [if_neg hmapne, if_neg (by rw [List.length_map]; omega)]
    exact ⟨_, rfl⟩

/-- C9 witness: the three clauses at concrete inputs. -/
theorem extract_palette_errors_witness :
    extract_palette ([] : List (ℤ × ℤ × ℤ)) 1 = .error .EmptyInput ∧
    extract_palette [((1:ℤ),(2:ℤ),(3:ℤ))] 0 = .error .InvalidArgument ∧
    ∃ pal, extract_palette [((1:ℤ),(2:ℤ),(3:ℤ))] 1 = .ok pal :=
  ⟨(extract_palette_errors ([] : List (ℤ × ℤ × ℤ)) 1).1 rfl,
   (extract_palette_errors [((1:ℤ),(2:ℤ),(3:ℤ))] 0).2.1 (by decide) (Or.inl (by norm_num)),
   (extract_palette_errors [((1:ℤ),(2:ℤ),(3:ℤ))] 1).2.2 (by decide) (by norm_num) (by decide)⟩

/-! ### Claim theorems for the complementary-color deriver -/

/-- C7: `complementary_color` converts RGB to HSL, adds exactly 0.5 to the
normalized hue modulo 1.0 leaving saturation and lightness unchanged,
converts back, and rounds each channel to a nearest integer, which lies in
`[0,255]`; the complement of pure red `(255,0,0)` is cyan `(0,255,255)`. -/
theorem complementary_color_hue_rotation (a b c : ℤ)
    (ha0 : 0 ≤ a) (ha1 : a ≤ 255) (hb0 : 0 ≤ b) (hb1 : b ≤ 255)
    (hc0 : 0 ≤ c) (hc1 : c ≤ 255) :
    (complementary_color (a, b, c) =
      (pyRound ((hls_to_rgb
          (pymod ((rgb_to_hls ((a:ℚ)/255) ((b:ℚ)/255) ((c:ℚ)/255)).1 + 1/2) 1)
          ((rgb_to_hls ((a:ℚ)/255) ((b:ℚ)/255) ((c:ℚ)/255)).2.1)
          ((rgb_to_hls ((a:ℚ)/255) ((b:ℚ)/255) ((c:ℚ)/255)).2.2)).1 * 255),
       pyRound ((hls_to_rgb
          (pymod ((rgb_to_hls ((a:ℚ)/255) ((b:ℚ)/255) ((c:ℚ)/255)).1 + 1/2) 1)
          ((rgb_to_hls ((a:ℚ)/255) ((b:ℚ)/255) ((c:ℚ)/255)).2.1)
          ((rgb_to_hls ((a:ℚ)/255) ((b:ℚ)/255) ((c:ℚ)/255)).2.2)).2.1 * 255),
       pyRound ((hls_to_rgb
          (pymod ((rgb_to_hls ((a:ℚ)/255) ((b:ℚ)/255) ((c:ℚ)/255)).1 + 1/2) 1)
          ((rgb_to_hls ((a:ℚ)/255) ((b:ℚ)/255) ((c:ℚ)/255)).2.1)
          ((rgb_to_hls ((a:ℚ)/255) ((b:ℚ)/255) ((c:ℚ)/255)).2.2)).2.2 * 255))) ∧
    (0 ≤ (complementary_color (a, b, c)).1 ∧ (complementary_color (a, b, c)).1 ≤ 255 ∧
     0 ≤ (complementary_color (a, b, c)).2.1 ∧ (complementary_color (a, b, c)).2.1 ≤ 255 ∧
     0 ≤ (complementary_color (a, b, c)).2.2 ∧ (complementary_color (a, b, c)).2.2 ≤ 255) ∧
    complementary_color (255, 0, 0) = (0, 255, 255) := by
  have f1 : a ≤ max a (max b c) := le_max_left _ _
  have f2 : b ≤ max a (max b c) := le_trans (le_max_left _ _) (le_max_right _ _)
  have f3 : c ≤ max a (max b c) := le_trans (le_max_right _ _) (le_max_right _ _)
  have f4 : min a (min b c) ≤ a := min_le_left _ _
  have f5 : min a (min b c) ≤ b := le_trans (min_le_right _ _) (min_le_left _ _)
  have f6 : min a (min b c) ≤ c := le_trans (min_le_right _ _) (min_le_right _ _)
  have f7 : 0 ≤ min a (min b c) := le_min ha0 (le_min hb0 hc0)
  have f8 : max a (max b c) ≤ 255 := max_le ha1 (max_le hb1 hc1)
  have h := complementary_color_reflect a b c ha0 ha1 hb0 hb1 hc0 hc1
  refine ⟨rfl, ?_, ?_⟩
  · rw [h]
    exact ⟨(by linarith : (0:ℤ) ≤ max a (max b c) + min a (min b c) - a),
      (by linarith : max a (max b c) + min a (min b c) - a ≤ 255),
      (by linarith : (0:ℤ) ≤ max a (max b c) + min a (min b c) - b),
      (by linarith : max a (max b c) + min a (min b c) - b ≤ 255),
      (by linarith : (0:ℤ) ≤ max a (max b c) + min a (min b c) - c),
      (by linarith : max a (max b c) + min a (min b c) - c ≤ 255)⟩
  · have h2 := complementary_color_reflect 255 0 0 (by norm_num) (by norm_num)
      (by norm_num) (by norm_num) (by norm_num) (by norm_num)
    rw [h2]
    decide

/-- C7 witness at `(12, 200, 7)`: channel bounds discharged concretely,
output in range and the red-cyan example. -/
theorem complementary_color_hue_rotation_witness :
    (0:ℤ) ≤ 12 ∧ (12:ℤ) ≤ 255 ∧ (0:ℤ) ≤ 200 ∧ (200:ℤ) ≤ 255 ∧
      (0:ℤ) ≤ 7 ∧ (7:ℤ) ≤ 255 ∧
      ((0 ≤ (complementary_color (12, 200, 7)).1 ∧
        (complementary_color (12, 200, 7)).1 ≤ 255 ∧
        0 ≤ (complementary_color (12, 200, 7)).2.1 ∧
        (complementary_color (12, 200, 7)).2.1 ≤ 255 ∧
        0 ≤ (complementary_color (12, 200, 7)).2.2 ∧
        (complementary_color (12, 200, 7)).2.2 ≤ 255) ∧
       complementary_color (255, 0, 0) = (0, 255, 255)) :=
  ⟨by norm_num, by norm_num, by norm_num, by norm_num, by norm_num, by norm_num,
    (complementary_color_hue_rotation 12 200 7 (by norm_num) (by norm_num)
      (by norm_num) (by norm_num) (by norm_num) (by norm_num)).2⟩

/-- C8: complement involution — applying `complementary_color` twice to any
triple with integer channels in `[0,255]` returns the original triple to
within ±1 per channel (in this exact-rational model, exactly). -/
theorem complementary_color_involution (a b c : ℤ)
    (ha0 : 0 ≤ a) (ha1 : a ≤ 255) (hb0 : 0 ≤ b) (hb1 : b ≤ 255)
    (hc0 : 0 ≤ c) (hc1 : c ≤ 255) :
    |(complementary_color (complementary_color (a, b, c))).1 - a| ≤ 1 ∧
    |(complementary_color (complementary_color (a, b, c))).2.1 - b| ≤ 1 ∧
    |(complementary_color (complementary_color (a, b, c))).2.2 - c| ≤ 1 := by
  have f1 : a ≤ max a (max b c) := le_max_left _ _
  have f2 : b ≤ max a (max b c) := le_trans (le_max_left _ _) (le_max_right _ _)
  have f3 : c ≤ max a (max b c) := le_trans (le_max_right _ _) (le_max_right _ _)
  have f4 : min a (min b c) ≤ a := min_le_left _ _
  have f5 : min a (min b c) ≤ b := le_trans (min_le_right _ _) (min_le_left _ _)
  have f6 : min a (min b c) ≤ c := le_trans (min_le_right _ _) (min_le_right _ _)
  have f7 : 0 ≤ min a (min b c) := le_min ha0 (le_min hb0 hc0)
  have f8 : max a (max b c) ≤ 255 := max_le ha1 (max_le hb1 hc1)
  have h1 := complementary_color_reflect a b c ha0 ha1 hb0 hb1 hc0 hc1
  rw [h1]
  have h2 := complementary_color_reflect
      (max a (max b c) + min a (min b c) - a)
      (max a (max b c) + min a (min b c) - b)
      (max a (max b c) + min a (min b c) - c)
      (by linarith) (by linarith) (by linarith)
      (by linarith) (by linarith) (by linarith)
  rw [h2, max_sub_sub_left, max_sub_sub_left, min_sub_sub_left, min_sub_sub_left]
  dsimp only
  refine ⟨?_, ?_, ?_⟩ <;> (rw [abs_le]; constructor <;> linarith)

/-- C8 witness at `(12, 200, 7)`. -/
theorem complementary_color_involution_witness :
    (0:ℤ) ≤ 12 ∧ (12:ℤ) ≤ 255 ∧ (0:ℤ) ≤ 200 ∧ (200:ℤ) ≤ 255 ∧
      (0:ℤ) ≤ 7 ∧ (7:ℤ) ≤ 255 ∧
      (|(complementary_color (complementary_color (12, 200, 7))).1 - 12| ≤ 1 ∧
       |(complementary_color (complementary_color (12, 200, 7))).2.1 - 200| ≤ 1 ∧
       |(complementary_color (complementary_color (12, 200, 7))).2.2 - 7| ≤ 1) :=
  ⟨by norm_num, by norm_num, by norm_num, by norm_num, by norm_num, by norm_num,
    complementary_color_involution 12 200 7 (by norm_num) (by norm_num)
      (by norm_num) (by norm_num) (by norm_num) (by norm_num)⟩

/-- C10: achromatic fixed point — on a triple with all channels equal (in
`[0,255]`), `complementary_color` returns the input unchanged. -/
theorem complementary_color_achromatic (v : ℤ) (h0 : 0 ≤ v) (h1 : v ≤ 255) :
    complementary_color (v, v, v) = (v, v, v) := by
  have h := complementary_color_reflect v v v h0 h1 h0 h1 h0 h1
  simp only [max_self, min_self] at h
  rw [h]
  simp only [Prod.mk.injEq]
  omega

/-- C10 witness at `v = 77`. -/
theorem complementary_color_achromatic_witness :
    (0:ℤ) ≤ 77 ∧ (77:ℤ) ≤ 255 ∧ complementary_color (77, 77, 77) = (77, 77, 77) :=
  ⟨by norm_num, by norm_num,
    complementary_color_achromatic 77 (by norm_num) (by norm_num)⟩

end Palettecraft
